import Mathlib

/-!
# autobuildmail: version resolution and changelog window extraction

A shallow embedding of `getLatestVersion` and `getLatestBuildLog` from
`autobuildmail.go`, together with the library operations they call
(`strings.HasPrefix`, `strings.Trim`, `sort.Sort`, `regexp`, `strconv.Atoi`,
`strconv.Itoa`, `strings.Split`, `strings.Join`).

Text is modelled as the list of its code points.  For valid UTF-8 text the
byte-wise comparison of Go strings agrees with the code-point-wise one, and the
ASCII cutsets and character classes used by the program act on whole code
points.
-/

namespace Autobuildmail

/-- Go `string`, as the sequence of its code points. -/
abbrev Str := List Char

/-! ## `strings` -/

/-- Go `strings.HasPrefix(s, prefix)`. -/
def HasPrefix : Str → Str → Bool
  | _, [] => true
  | [], _ :: _ => false
  | c :: s, d :: p => c == d && HasPrefix s p

/-- Go `strings.HasSuffix(s, suffix)`. -/
def HasSuffix (s suf : Str) : Bool := HasPrefix s.reverse suf.reverse

/-- Go `strings.Contains(s, substr)`. -/
def Contains : Str → Str → Bool
  | [], sub => HasPrefix [] sub
  | c :: s, sub => HasPrefix (c :: s) sub || Contains s sub

/-- Go `strings.Trim(s, cutset)`: all leading and all trailing code points that
occur in `cutset` are removed. -/
def Trim (s cutset : Str) : Str :=
  ((s.reverse.dropWhile (fun c => cutset.contains c)).reverse).dropWhile
    (fun c => cutset.contains c)

/-- Go `strings.Split(s, "\n")`: the pieces between the line feeds, one more
piece than there are line feeds. -/
def Split : Str → List Str
  | [] => [[]]
  | c :: s =>
    if c = '\n' then [] :: Split s
    else match Split s with
      | [] => [[c]]
      | piece :: pieces => (c :: piece) :: pieces

/-- Go `strings.Join(elems, sep)`. -/
def Join (elems : List Str) (sep : Str) : Str := List.intercalate sep elems

/-! ## `sort` -/

/-- The `<` of Go strings (`sort.StringSlice.Less`): lexicographic order. -/
def Less : Str → Str → Bool
  | [], [] => false
  | [], _ :: _ => true
  | _ :: _, [] => false
  | c :: s, d :: t =>
    if c.toNat < d.toNat then true
    else if d.toNat < c.toNat then false
    else Less s t

/-- The order of `sort.Reverse(sort.StringSlice(x))`: `Less(i, j)` of the
reversed interface is `Less(j, i)` of the wrapped one. -/
def reverseLess (a b : Str) : Bool := Less b a

/-- The relation that holds between an earlier and a later element of a slice
sorted by `sort.Sort(sort.Reverse(..))`: the later one is not before the earlier
one in the reversed order, that is, the earlier one is not smaller. -/
def notBelow (a b : Str) : Prop := reverseLess b a = false

instance : DecidableRel notBelow := fun a b => decEq (reverseLess b a) false

/-- The result of `sort.Sort(sort.Reverse(sort.StringSlice(x)))`: the elements
of `x` in descending order.  The order of strings is total and antisymmetric,
so the sorted slice is the same for every sorting algorithm. -/
def sortReverse (x : List Str) : List Str := List.insertionSort notBelow x

/-! ## Version resolver -/

/-- The four slices filled by the classification loop of `getLatestVersion`. -/
structure Pools where
  dispensePool : List Str
  officePool : List Str
  schedulerPool : List Str
  registerPool : List Str
deriving DecidableEq

/-- One iteration of the loop over the directory entries. -/
def classify (p : Pools) (name : Str) : Pools :=
  if HasPrefix name "Dispense".toList then
    { p with dispensePool := p.dispensePool ++ [name] }
  else if HasPrefix name "Office".toList then
    { p with officePool := p.officePool ++ [name] }
  else if HasPrefix name "Register".toList then
    { p with registerPool := p.registerPool ++ [name] }
  else if HasPrefix name "Scheduler".toList then
    { p with schedulerPool := p.schedulerPool ++ [name] }
  else p

/-- The pools after the loop over all entries. -/
def fillPools (files : List Str) : Pools :=
  files.foldl classify ⟨[], [], [], []⟩

/-- The element `pool[0]` of a sorted pool, read under the guard
`len(pool) > 0`. -/
def latest (pool : List Str) : Option Str := (sortReverse pool).head?

/-- The version derived from a chosen file name:
`strings.Trim(strings.Trim(name, token), ".zip")`. -/
def versionOf (token name : Str) : Str := Trim (Trim name token) ".zip".toList

/-- One of the four guarded appends to `versions`. -/
def appendVersion (versions : List Str) (token : Str) (pool : List Str) : List Str :=
  match latest pool with
  | some top => versions ++ [versionOf token top]
  | none => versions

/-- The function `getLatestVersion` on the names listed by `ioutil.ReadDir`
(the path on which the listing succeeded). -/
def getLatestVersion (files : List Str) : List Str :=
  let pools := fillPools files
  let versions : List Str := []
  let versions := appendVersion versions "Dispense".toList pools.dispensePool
  let versions := appendVersion versions "Office".toList pools.officePool
  let versions := appendVersion versions "Register".toList pools.registerPool
  let versions := appendVersion versions "Scheduler".toList pools.schedulerPool
  versions

/-- The four product lines, in the order in which `getLatestVersion` appends
their versions. -/
inductive Product where
  | Dispense
  | Office
  | Register
  | Scheduler
deriving DecidableEq

/-- The name token of a product. -/
def Product.token : Product → Str
  | .Dispense => "Dispense".toList
  | .Office => "Office".toList
  | .Register => "Register".toList
  | .Scheduler => "Scheduler".toList

/-- The products in the fixed order Dispense, Office, Register, Scheduler. -/
def products : List Product := [.Dispense, .Office, .Register, .Scheduler]

/-- The pool that the loop of `getLatestVersion` fills for a product. -/
def Pools.poolOf (p : Pools) : Product → List Str
  | .Dispense => p.dispensePool
  | .Office => p.officePool
  | .Register => p.registerPool
  | .Scheduler => p.schedulerPool

/-- The bucket of a product: the entries of the listing whose name starts with
the token of the product, in listing order. -/
def bucket (P : Product) (files : List Str) : List Str :=
  files.filter (fun name => HasPrefix name P.token)

/-- A name is the greatest of a list of names in the order of Go strings. -/
def IsGreatest (m : Str) (names : List Str) : Prop :=
  m ∈ names ∧ ∀ n ∈ names, Less m n = false

/-! ## `regexp` -/

/-- How often a character class is repeated: once, `+` or `*` (both greedy). -/
inductive Quant where
  | one
  | plus
  | star
deriving DecidableEq

/-- A character class with its repetition. -/
structure Item where
  cls : Char → Bool
  q : Quant

/-- A regular expression of the shape used by the program: an optional leading
`^` followed by a sequence of repeated character classes. -/
structure Regexp where
  anchored : Bool
  items : List Item

/-- The class of `\d` and `[0-9]`. -/
def isDigit (c : Char) : Bool := decide (48 ≤ c.toNat) && decide (c.toNat ≤ 57)

/-- The class of `\s`: tab, line feed, form feed, carriage return, space. -/
def isSpace (c : Char) : Bool :=
  c.toNat == 9 || c.toNat == 10 || c.toNat == 12 || c.toNat == 13 || c.toNat == 32

/-- The class of `.`: every code point but the line feed. -/
def isDot (c : Char) : Bool := !(c == '\n')

/-- The class of a literal character. -/
def isLit (l : Char) (c : Char) : Bool := c == l

/-- Greedy repetition of the class `cls` followed by the continuation `k`: the
longest run is tried first and given back one character at a time.  The result
is the number of characters matched. -/
def greedy (cls : Char → Bool) (k : Str → Option Nat) : Str → Option Nat
  | [] => k []
  | c :: s =>
    if cls c then
      match greedy cls k s with
      | some n => some (n + 1)
      | none => k (c :: s)
    else k (c :: s)

/-- The leftmost-first match of a sequence of items at the start of the text:
the number of characters it spans, if there is one. -/
def matchHere : List Item → Str → Option Nat
  | [], _ => some 0
  | ⟨cls, .one⟩ :: items, s =>
    match s with
    | [] => none
    | c :: t => if cls c then (matchHere items t).map (· + 1) else none
  | ⟨cls, .plus⟩ :: items, s =>
    match s with
    | [] => none
    | c :: t => if cls c then (greedy cls (matchHere items) t).map (· + 1) else none
  | ⟨cls, .star⟩ :: items, s => greedy cls (matchHere items) s

/-- Go `Regexp.MatchString`: an unanchored expression is searched at every
position, an expression starting with `^` only at the start. -/
def MatchString (re : Regexp) : Str → Bool
  | [] => (matchHere re.items []).isSome
  | c :: s => (matchHere re.items (c :: s)).isSome || (!re.anchored && MatchString re s)

/-- The successive non-overlapping non-empty matches of an unanchored
expression, left to right.  `skip` counts the characters of the text still
covered by the match found last. -/
def allMatchesAux (items : List Item) : Nat → Str → List Str
  | _, [] => []
  | skip + 1, _ :: s => allMatchesAux items skip s
  | 0, c :: s =>
    match matchHere items (c :: s) with
    | some (n + 1) => (c :: s).take (n + 1) :: allMatchesAux items n s
    | _ => allMatchesAux items 0 s

/-- All matches of the expression in the text. -/
def allMatches (re : Regexp) (s : Str) : List Str := allMatchesAux re.items 0 s

/-- Go `Regexp.FindAllString(s, n)`: the successive matches, at most `n` of
them when `n` is not negative. -/
def FindAllString (re : Regexp) (s : Str) (n : Int) : List Str :=
  if n < 0 then allMatches re s else (allMatches re s).take n.toNat

/-- The text with every match replaced by `repl`; `skip` as in
`allMatchesAux`. -/
def replaceAux (items : List Item) (repl : Str) : Nat → Str → Str
  | _, [] => []
  | skip + 1, _ :: s => replaceAux items repl skip s
  | 0, c :: s =>
    match matchHere items (c :: s) with
    | some (n + 1) => repl ++ replaceAux items repl n s
    | _ => c :: replaceAux items repl 0 s

/-- Go `Regexp.ReplaceAllString(src, repl)` for a replacement text without
`$` references. -/
def ReplaceAllString (re : Regexp) (src repl : Str) : Str :=
  replaceAux re.items repl 0 src

/-- The expression `r([0-9]+)`. -/
def revisionRe : Regexp := ⟨false, [⟨isLit 'r', .one⟩, ⟨isDigit, .plus⟩]⟩

/-- The expression `r\d+ .+\s+\n`. -/
def commitInfoRe : Regexp :=
  ⟨false, [⟨isLit 'r', .one⟩, ⟨isDigit, .plus⟩, ⟨isLit ' ', .one⟩, ⟨isDot, .plus⟩,
    ⟨isSpace, .plus⟩, ⟨isLit '\n', .one⟩]⟩

/-- The expression `-+\s+\n`. -/
def dashesRe : Regexp :=
  ⟨false, [⟨isLit '-', .plus⟩, ⟨isSpace, .plus⟩, ⟨isLit '\n', .one⟩]⟩

/-- The expression `^- .*`. -/
def bulletRe : Regexp := ⟨true, [⟨isLit '-', .one⟩, ⟨isLit ' ', .one⟩, ⟨isDot, .star⟩]⟩

/-! ## `strconv` -/

/-- The two errors of `strconv`. -/
inductive NumError where
  | ErrSyntax
  | ErrRange
deriving DecidableEq

/-- Largest value of the 64-bit `int`. -/
def maxInt : Int := 2 ^ 63 - 1

/-- Smallest value of the 64-bit `int`. -/
def minInt : Int := -(2 ^ 63)

/-- The value a 64-bit `int` holds after an arithmetic step whose exact result
is `x`. -/
def wrapInt (x : Int) : Int := (x + 2 ^ 63) % 2 ^ 64 - 2 ^ 63

/-- The value of a run of decimal digits read after the value `acc`; `none`
when a character is not a digit. -/
def parseDigits : Nat → Str → Option Nat
  | acc, [] => some acc
  | acc, c :: s => if isDigit c then parseDigits (acc * 10 + (c.toNat - 48)) s else none

/-- Go `strconv.Atoi` on a 64-bit platform: the value and the error.  A text
that is not an optionally signed run of digits gives `0` and `ErrSyntax`; a
value outside the `int` range gives the nearest bound and `ErrRange`. -/
def Atoi (s : Str) : Int × Option NumError :=
  let signed : Bool × Str :=
    match s with
    | '-' :: t => (true, t)
    | '+' :: t => (false, t)
    | _ => (false, s)
  match signed.2 with
  | [] => (0, some .ErrSyntax)
  | c :: t =>
    match parseDigits 0 (c :: t) with
    | none => (0, some .ErrSyntax)
    | some n =>
      if signed.1 then
        if (2 : Int) ^ 63 < n then (minInt, some .ErrRange) else (-(n : Int), none)
      else
        if maxInt < n then (maxInt, some .ErrRange) else ((n : Int), none)

/-- Go `strconv.Itoa`. -/
def Itoa (i : Int) : Str :=
  if i < 0 then '-' :: Nat.toDigits 10 i.natAbs else Nat.toDigits 10 i.toNat

/-! ## Changelog window extractor -/

/-- The two ways in which `getLatestBuildLog` ends the run: the runtime panic of
the slice index `revisions[1]` (or `revisions[0]`) out of range, and the
`os.Exit(1)` after the message "Cannot find the correct revision ... Atoi
failed". -/
inductive Failure where
  | indexOutOfRange
  | atoiFailed
deriving DecidableEq

/-- How a call of `getLatestBuildLog` ends: with the returned changelog or with
a failure of the run. -/
inductive Outcome where
  | returned (changelog : Str)
  | failed (failure : Failure)
deriving DecidableEq

/-- What a call of `getLatestBuildLog` does: the argument lists of the `svn`
commands it ran, in order, and how it ended. -/
structure Run where
  commands : List (List Str)
  result : Outcome
deriving DecidableEq

/-- The arguments of the probe: `svn log <directory> -l 30 --search zbuild`. -/
def probeArgs (directory : Str) : List Str :=
  ["log".toList, directory, "-l".toList, "30".toList, "--search".toList, "zbuild".toList]

/-- The arguments of the range query: `svn log <directory> <range>`. -/
def rangeArgs (directory range : Str) : List Str := ["log".toList, directory, range]

/-- The range argument `"-r" + Itoa(revisionFrom) + ":" + Itoa(revisionTo)`. -/
def officeRange (revisionFrom revisionTo : Int) : Str :=
  "-r".toList ++ Itoa revisionFrom ++ ":".toList ++ Itoa revisionTo

/-- The body of the loop over the split lines: a line that does not match
`^- .*` and is not empty gets `"- "` in front. -/
def bullet (v : Str) : Str :=
  if !MatchString bulletRe v && v != [] then "- ".toList ++ v else v

/-- The loop over the split lines. -/
def bulletLines (logLines : List Str) : List Str := logLines.map bullet

/-- The part of `getLatestBuildLog` after the range query: the two
replacements, the split, the bullets and the join. -/
def reformat (out : Str) : Str :=
  let buildLog := out
  let buildLog := ReplaceAllString commitInfoRe buildLog []
  let buildLog := ReplaceAllString dashesRe buildLog []
  let logLines := Split buildLog
  let lines := bulletLines logLines
  Join lines "<br>".toList

/-- The function `getLatestBuildLog`.  `svn` gives the standard output of the
`svn` command for an argument list; as in the source, the error of either
command is not looked at.  The error of the first `Atoi` is overwritten by the
second before the only test of `err`. -/
def getLatestBuildLog (svn : List Str → Str) (directory : Str) : Run :=
  let out := svn (probeArgs directory)
  let revisions := FindAllString revisionRe out 2
  match revisions[1]? with
  | none => ⟨[probeArgs directory], .failed .indexOutOfRange⟩
  | some r1 =>
    let revisionFrom := (Atoi (r1.drop 1)).1
    match revisions[0]? with
    | none => ⟨[probeArgs directory], .failed .indexOutOfRange⟩
    | some r0 =>
      let revisionTo := (Atoi (r0.drop 1)).1
      let err := (Atoi (r0.drop 1)).2
      if err ≠ none then ⟨[probeArgs directory], .failed .atoiFailed⟩
      else
        let revisionFrom := wrapInt (revisionFrom + 1)
        let revisionTo := wrapInt (revisionTo - 1)
        let range := officeRange revisionFrom revisionTo
        let out := svn (rangeArgs directory range)
        ⟨[probeArgs directory, rangeArgs directory range], .returned (reformat out)⟩

/-- An `svn` that answers the probe of `directory` with `probe` and every
other command with `other`. -/
def svnAnswering (directory probe other : Str) : List Str → Str :=
  fun args => if args = probeArgs directory then probe else other

/-! ## The order of strings -/

theorem Less_irrefl (a : Str) : Less a a = false := by
  induction a with
  | nil => rfl
  | cons c s ih => simp [Less, ih]

theorem Less_asymm : ∀ (a b : Str), Less a b = true → Less b a = false
  | [], [], h => by simp [Less] at h
  | [], _ :: _, _ => by simp [Less]
  | _ :: _, [], h => by simp [Less] at h
  | c :: s, d :: t, h => by
    simp only [Less] at h ⊢
    split_ifs at h ⊢ <;> first
      | rfl
      | contradiction
      | omega
      | exact Less_asymm s t h

theorem Less_trans_false : ∀ (a b c : Str),
    Less a b = false → Less b c = false → Less a c = false
  | [], [], _, _, h2 => h2
  | [], _ :: _, _, h1, _ => by simp [Less] at h1
  | _ :: _, [], [], _, _ => by simp [Less]
  | _ :: _, [], _ :: _, _, h2 => by simp [Less] at h2
  | _ :: _, _ :: _, [], _, _ => by simp [Less]
  | x :: s, y :: t, z :: u, h1, h2 => by
    simp only [Less] at h1 h2 ⊢
    split_ifs at h1 h2 ⊢ <;> first
      | rfl
      | contradiction
      | omega
      | exact Less_trans_false s t u h1 h2

theorem Less_antisymm : ∀ (a b : Str), Less a b = false → Less b a = false → a = b
  | [], [], _, _ => rfl
  | [], _ :: _, h, _ => by simp [Less] at h
  | _ :: _, [], _, h => by simp [Less] at h
  | c :: s, d :: t, h1, h2 => by
    simp only [Less] at h1 h2
    split_ifs at h1 h2 with a1 a2
    have hcd : c = d := by
      have e : c.toNat = d.toNat := by omega
      rw [← Char.ofNat_toNat c, ← Char.ofNat_toNat d, e]
    rw [hcd, Less_antisymm s t h1 h2]

instance : IsTotal Str notBelow where
  total a b := by
    unfold notBelow reverseLess
    cases h : Less a b
    · exact Or.inl rfl
    · exact Or.inr (Less_asymm a b h)

instance : IsTrans Str notBelow where
  trans a b c hab hbc := by
    unfold notBelow reverseLess at *
    exact Less_trans_false a b c hab hbc

instance : IsAntisymm Str notBelow where
  antisymm a b hab hba := by
    unfold notBelow reverseLess at *
    exact Less_antisymm a b hab hba

/-! ## The sorted pools -/

theorem sortReverse_perm (x : List Str) : (sortReverse x).Perm x :=
  List.perm_insertionSort notBelow x

theorem sortReverse_sorted (x : List Str) : (sortReverse x).Sorted notBelow :=
  List.sorted_insertionSort notBelow x

theorem sortReverse_congr {x y : List Str} (h : x.Perm y) : sortReverse x = sortReverse y :=
  List.eq_of_perm_of_sorted
    (((sortReverse_perm x).trans h).trans (sortReverse_perm y).symm)
    (sortReverse_sorted x) (sortReverse_sorted y)

theorem latest_eq_none {pool : List Str} : latest pool = none ↔ pool = [] := by
  unfold latest
  constructor
  · intro h
    have hnil : sortReverse pool = [] := by
      cases hs : sortReverse pool with
      | nil => rfl
      | cons a l => rw [hs] at h; simp at h
    have hp := sortReverse_perm pool
    rw [hnil] at hp
    exact hp.symm.eq_nil
  · intro h
    subst h
    rfl

theorem latest_isGreatest {pool : List Str} {m : Str} (h : latest pool = some m) :
    IsGreatest m pool := by
  unfold latest at h
  cases hs : sortReverse pool with
  | nil => rw [hs] at h; simp at h
  | cons a l =>
    rw [hs] at h
    simp only [List.head?_cons, Option.some.injEq] at h
    subst h
    have hp := sortReverse_perm pool
    have hsort := sortReverse_sorted pool
    rw [hs] at hp hsort
    refine ⟨hp.subset (List.mem_cons_self _ _), ?_⟩
    intro n hn
    have hn2 : n ∈ a :: l := hp.symm.subset hn
    rcases List.mem_cons.mp hn2 with rfl | hl
    · exact Less_irrefl _
    · exact List.rel_of_sorted_cons hsort n hl

theorem IsGreatest_unique {names : List Str} {m k : Str}
    (hm : IsGreatest m names) (hk : IsGreatest k names) : m = k :=
  Less_antisymm m k (hm.2 k hk.1) (hk.2 m hm.1)

theorem latest_eq_some_iff {pool : List Str} {m : Str} :
    latest pool = some m ↔ IsGreatest m pool := by
  constructor
  · exact latest_isGreatest
  · intro hm
    cases hl : latest pool with
    | none =>
      rw [latest_eq_none] at hl
      rw [hl] at hm
      exact absurd hm.1 (List.not_mem_nil _)
    | some k => rw [IsGreatest_unique hm (latest_isGreatest hl)]

theorem latest_congr {x y : List Str} (h : x.Perm y) : latest x = latest y := by
  unfold latest
  rw [sortReverse_congr h]

/-! ## The classification loop -/

theorem HasPrefix_head {s p : Str} {d : Char} (h : HasPrefix s (d :: p) = true) :
    s.head? = some d := by
  cases s with
  | nil => simp [HasPrefix] at h
  | cons c t =>
    simp only [HasPrefix, Bool.and_eq_true, beq_iff_eq] at h
    simp [h.1]

theorem token_head (P : Product) : ∃ d p, P.token = d :: p ∧
    d = (match P with
      | .Dispense => 'D'
      | .Office => 'O'
      | .Register => 'R'
      | .Scheduler => 'S') := by
  cases P <;> exact ⟨_, _, rfl, rfl⟩

theorem token_disjoint (name : Str) {P Q : Product} (hPQ : P ≠ Q)
    (h : HasPrefix name P.token = true) : HasPrefix name Q.token = false := by
  cases hq : HasPrefix name Q.token with
  | false => rfl
  | true =>
    exfalso
    obtain ⟨d, p, hP, hd⟩ := token_head P
    obtain ⟨e, q, hQ, he⟩ := token_head Q
    rw [hP] at h
    rw [hQ] at hq
    have h1 := HasPrefix_head h
    have h2 := HasPrefix_head hq
    rw [h1] at h2
    have hde : d = e := Option.some.inj h2
    subst hd he
    cases P <;> cases Q <;> first
      | exact hPQ rfl
      | exact absurd hde (by decide)

theorem classify_poolOf (p : Pools) (name : Str) (P : Product) :
    (classify p name).poolOf P =
      p.poolOf P ++ (if HasPrefix name P.token = true then [name] else []) := by
  by_cases hD : HasPrefix name Product.Dispense.token = true
  · have hO := token_disjoint name (Q := .Office) (by decide) hD
    have hR := token_disjoint name (Q := .Register) (by decide) hD
    have hS := token_disjoint name (Q := .Scheduler) (by decide) hD
    simp only [Product.token] at hD hO hR hS
    cases P <;> simp only [classify, Pools.poolOf, Product.token, hD, hO, hR, hS, if_true, if_false,
            Bool.false_eq_true, List.append_nil, reduceCtorEq]
  · by_cases hO : HasPrefix name Product.Office.token = true
    · have hR := token_disjoint name (Q := .Register) (by decide) hO
      have hS := token_disjoint name (Q := .Scheduler) (by decide) hO
      simp only [Product.token] at hD hO hR hS
      cases P <;> simp only [classify, Pools.poolOf, Product.token, hD, hO, hR, hS, if_true, if_false,
            Bool.false_eq_true, List.append_nil, reduceCtorEq]
    · by_cases hR : HasPrefix name Product.Register.token = true
      · have hS := token_disjoint name (Q := .Scheduler) (by decide) hR
        simp only [Product.token] at hD hO hR hS
        cases P <;> simp only [classify, Pools.poolOf, Product.token, hD, hO, hR, hS, if_true, if_false,
            Bool.false_eq_true, List.append_nil, reduceCtorEq]
      · by_cases hS : HasPrefix name Product.Scheduler.token = true
        · simp only [Product.token] at hD hO hR hS
          cases P <;> simp only [classify, Pools.poolOf, Product.token, hD, hO, hR, hS, if_true, if_false,
            Bool.false_eq_true, List.append_nil, reduceCtorEq]
        · simp only [Product.token] at hD hO hR hS
          cases P <;> simp only [classify, Pools.poolOf, Product.token, hD, hO, hR, hS, if_true, if_false,
            Bool.false_eq_true, List.append_nil, reduceCtorEq]

theorem foldl_classify_poolOf (files : List Str) (p : Pools) (P : Product) :
    (files.foldl classify p).poolOf P = p.poolOf P ++ bucket P files := by
  induction files generalizing p with
  | nil => simp [bucket]
  | cons name rest ih =>
    rw [List.foldl_cons, ih, classify_poolOf]
    by_cases h : HasPrefix name P.token = true
    · simp [bucket, h]
    · simp [bucket, h]

theorem fillPools_poolOf (files : List Str) (P : Product) :
    (fillPools files).poolOf P = bucket P files := by
  unfold fillPools
  rw [foldl_classify_poolOf]
  cases P <;> rfl

/-- The version that `getLatestVersion` appends for a product, if it appends
one. -/
theorem getLatestVersion_eq_filterMap (files : List Str) :
    getLatestVersion files =
      products.filterMap (fun P => (latest (bucket P files)).map (versionOf P.token)) := by
  have hD := fillPools_poolOf files .Dispense
  have hO := fillPools_poolOf files .Office
  have hR := fillPools_poolOf files .Register
  have hS := fillPools_poolOf files .Scheduler
  simp only [Pools.poolOf] at hD hO hR hS
  simp only [getLatestVersion, appendVersion, hD, hO, hR, hS, products, List.filterMap_cons,
    List.filterMap_nil]
  generalize latest (bucket .Dispense files) = a
  generalize latest (bucket .Office files) = b
  generalize latest (bucket .Register files) = c
  generalize latest (bucket .Scheduler files) = d
  cases a <;> cases b <;> cases c <;> cases d <;> rfl

theorem bucket_perm {files files2 : List Str} (h : files.Perm files2) (P : Product) :
    (bucket P files).Perm (bucket P files2) :=
  h.filter _

theorem getLatestVersion_congr {files files2 : List Str} (h : files.Perm files2) :
    getLatestVersion files = getLatestVersion files2 := by
  rw [getLatestVersion_eq_filterMap, getLatestVersion_eq_filterMap]
  congr 1
  funext P
  rw [latest_congr (bucket_perm h P)]

/-! ## Trimming -/

theorem head_dropWhile_not (p : Char → Bool) (l : Str) (c : Char)
    (h : (l.dropWhile p).head? = some c) : p c = false := by
  have := List.head?_dropWhile_not p l
  rw [h] at this
  exact this

theorem getLast_dropWhile (p : Char → Bool) : ∀ (l : Str) (c : Char),
    (l.dropWhile p).getLast? = some c → l.getLast? = some c
  | [], _, h => by simp at h
  | a :: l, c, h => by
    rw [List.dropWhile_cons] at h
    split_ifs at h with hp
    · have ih := getLast_dropWhile p l c h
      rw [List.getLast?_cons, ih]
      rfl
    · exact h

theorem Trim_head (s cutset : Str) (c : Char) (h : (Trim s cutset).head? = some c) :
    cutset.contains c = false :=
  head_dropWhile_not _ _ c h

theorem Trim_getLast (s cutset : Str) (c : Char) (h : (Trim s cutset).getLast? = some c) :
    cutset.contains c = false := by
  unfold Trim at h
  have h2 := getLast_dropWhile _ _ c h
  rw [List.getLast?_reverse] at h2
  exact head_dropWhile_not _ _ c h2

theorem HasPrefix_false_of_head {v p : Str} {d : Char}
    (h : ∀ c, v.head? = some c → c ≠ d) : HasPrefix v (d :: p) = false := by
  cases hv : HasPrefix v (d :: p) with
  | false => rfl
  | true => exact absurd rfl (h d (HasPrefix_head hv))

theorem mem_getLatestVersion {files : List Str} {v : Str} (h : v ∈ getLatestVersion files) :
    ∃ P name, latest (bucket P files) = some name ∧ v = versionOf P.token name := by
  rw [getLatestVersion_eq_filterMap, List.mem_filterMap] at h
  obtain ⟨P, _, hP⟩ := h
  cases hl : latest (bucket P files) with
  | none => rw [hl] at hP; simp at hP
  | some name =>
    rw [hl] at hP
    simp only [Option.map_some', Option.some.injEq] at hP
    exact ⟨P, name, hl, hP.symm⟩

theorem filterMap_map_some {α β : Type} (f : α → Option β) (q : α → Bool)
    (hq : ∀ a, q a = (f a).isSome) :
    ∀ l : List α, (l.filterMap f).map some = (l.filter q).map f
  | [] => rfl
  | a :: l => by
    have ih := filterMap_map_some f q hq l
    cases hf : f a with
    | none =>
      have hqa : q a = false := by rw [hq, hf]; rfl
      simp [List.filterMap_cons, hf, List.filter_cons, hqa, ih]
    | some b =>
      have hqa : q a = true := by rw [hq, hf]; rfl
      simp [List.filterMap_cons, hf, List.filter_cons, hqa, ih]

theorem latest_isSome (pool : List Str) : (latest pool).isSome = !pool.isEmpty := by
  cases hl : latest pool with
  | none =>
    rw [latest_eq_none] at hl
    subst hl
    rfl
  | some m =>
    cases pool with
    | nil => simp [latest, sortReverse] at hl
    | cons a l => rfl

/-! ## Claims about the version resolver -/

/-- C1 (as stated, refuted): for the listing `Dispense-2024.03.01.zip`,
`Dispense-2024.02.15.zip`, `Office-9.zip` the result of `getLatestVersion` is
not `["2024.03.01", "9"]`: the hyphen after the product token is in neither
cutset and stays in front of both versions. -/
theorem getLatestVersion_scenario_hyphen_kept :
    getLatestVersion ["Dispense-2024.03.01.zip".toList, "Dispense-2024.02.15.zip".toList,
        "Office-9.zip".toList] ≠ ["2024.03.01".toList, "9".toList] ∧
      getLatestVersion ["Dispense-2024.03.01.zip".toList, "Dispense-2024.02.15.zip".toList,
        "Office-9.zip".toList] = ["-2024.03.01".toList, "-9".toList] := by
  decide

/-- C1 (amended): for a directory whose entries are exactly
`Dispense-2024.03.01.zip`, `Dispense-2024.02.15.zip` and `Office-9.zip`, in any
listing order, `getLatestVersion` returns exactly the two-element list
`["-2024.03.01", "-9"]`: the Dispense version first, the Office version second,
nothing for Register or Scheduler. -/
theorem getLatestVersion_scenario (files : List Str)
    (h : files.Perm ["Dispense-2024.03.01.zip".toList, "Dispense-2024.02.15.zip".toList,
      "Office-9.zip".toList]) :
    getLatestVersion files = ["-2024.03.01".toList, "-9".toList] := by
  rw [getLatestVersion_congr h]
  decide

theorem getLatestVersion_scenario_witness :
    (["Office-9.zip".toList, "Dispense-2024.02.15.zip".toList,
        "Dispense-2024.03.01.zip".toList] : List Str).Perm
        ["Dispense-2024.03.01.zip".toList, "Dispense-2024.02.15.zip".toList,
          "Office-9.zip".toList] ∧
      getLatestVersion ["Office-9.zip".toList, "Dispense-2024.02.15.zip".toList,
        "Dispense-2024.03.01.zip".toList] = ["-2024.03.01".toList, "-9".toList] :=
  ⟨by decide, getLatestVersion_scenario _ (by decide)⟩

/-- C2 (as stated, refuted): a returned version can contain the product token,
and it can contain `.zip`: `DispenseXDispenseY.zip` gives `XDispenseY`, and
`Office-a.zip-b` gives `-a.zip-b`. -/
theorem getLatestVersion_version_contains_token :
    getLatestVersion ["DispenseXDispenseY.zip".toList, "Office-a.zip-b".toList] =
        ["XDispenseY".toList, "-a.zip-b".toList] ∧
      Contains "XDispenseY".toList Product.Dispense.token = true ∧
      Contains "-a.zip-b".toList ".zip".toList = true := by
  decide

/-- C2 (amended): for every directory listing, every version string returned
by `getLatestVersion` neither begins nor ends with one of the characters `.`,
`z`, `i`, `p` of the suffix token; in particular it neither begins nor ends
with `.zip`. -/
theorem getLatestVersion_version_trimmed (files : List Str) (v : Str)
    (hv : v ∈ getLatestVersion files) :
    (∀ c, v.head? = some c → c ∉ ".zip".toList) ∧
      (∀ c, v.getLast? = some c → c ∉ ".zip".toList) ∧
      HasPrefix v ".zip".toList = false ∧ HasSuffix v ".zip".toList = false := by
  obtain ⟨P, name, _, rfl⟩ := mem_getLatestVersion hv
  have hhead : ∀ c, (versionOf P.token name).head? = some c → c ∉ ".zip".toList := by
    intro c hc hmem
    have := Trim_head _ _ c hc
    have hel : List.elem c ".zip".toList = true := List.elem_iff.mpr hmem
    rw [show (".zip".toList.contains c) = List.elem c ".zip".toList from rfl, hel] at this
    exact Bool.noConfusion this
  have hlast : ∀ c, (versionOf P.token name).getLast? = some c → c ∉ ".zip".toList := by
    intro c hc hmem
    have := Trim_getLast _ _ c hc
    have hel : List.elem c ".zip".toList = true := List.elem_iff.mpr hmem
    rw [show (".zip".toList.contains c) = List.elem c ".zip".toList from rfl, hel] at this
    exact Bool.noConfusion this
  refine ⟨hhead, hlast, ?_, ?_⟩
  · exact HasPrefix_false_of_head (d := '.') (p := "zip".toList)
      (fun c hc hcd => hhead c hc (by rw [hcd]; decide))
  · unfold HasSuffix
    refine HasPrefix_false_of_head (d := 'p') (p := "iz.".toList) ?_
    intro c hc hcd
    rw [List.head?_reverse] at hc
    exact hlast c hc (by rw [hcd]; decide)

theorem getLatestVersion_version_trimmed_witness :
    "-9".toList ∈ getLatestVersion ["Dispense-2024.03.01.zip".toList, "Office-9.zip".toList] ∧
      ((∀ c, "-9".toList.head? = some c → c ∉ ".zip".toList) ∧
      (∀ c, "-9".toList.getLast? = some c → c ∉ ".zip".toList) ∧
      HasPrefix "-9".toList ".zip".toList = false ∧
      HasSuffix "-9".toList ".zip".toList = false) :=
  ⟨by decide, getLatestVersion_version_trimmed
    ["Dispense-2024.03.01.zip".toList, "Office-9.zip".toList] "-9".toList (by decide)⟩

/-- C3: for every directory listing, `getLatestVersion` returns exactly one
element per product whose bucket (the entries starting with its token) is not
empty and none for the others, in the order Dispense, Office, Register,
Scheduler: element by element the result is the list of the versions derived
from the non-empty buckets taken in that order, so its length is the number of
non-empty buckets, at most 4, and 0 when no entry has a recognised prefix; with
no Dispense entry the Office version is at index 0. -/
theorem getLatestVersion_one_per_bucket (files : List Str) :
    (getLatestVersion files).map some =
        (products.filter (fun P => !(bucket P files).isEmpty)).map
          (fun P => (latest (bucket P files)).map (versionOf P.token)) ∧
      (∀ P, (fillPools files).poolOf P = bucket P files) ∧
      (∀ P, (latest (bucket P files)).isSome = !(bucket P files).isEmpty) ∧
      (getLatestVersion files).length =
        (products.filter (fun P => !(bucket P files).isEmpty)).length ∧
      (getLatestVersion files).length ≤ 4 ∧
      ((∀ name ∈ files, ∀ P : Product, HasPrefix name P.token = false) →
        getLatestVersion files = []) ∧
      (bucket .Dispense files = [] → bucket .Office files ≠ [] →
        ((getLatestVersion files)[0]?).map some =
          some ((latest (bucket .Office files)).map (versionOf Product.Office.token))) := by
  have hmap : (getLatestVersion files).map some =
      (products.filter (fun P => !(bucket P files).isEmpty)).map
        (fun P => (latest (bucket P files)).map (versionOf P.token)) := by
    rw [getLatestVersion_eq_filterMap]
    apply filterMap_map_some
    intro P
    rw [← latest_isSome]
    cases latest (bucket P files) <;> rfl
  have hlen : (getLatestVersion files).length =
      (products.filter (fun P => !(bucket P files).isEmpty)).length := by
    have := congrArg List.length hmap
    simpa using this
  refine ⟨hmap, fillPools_poolOf files, fun P => latest_isSome _, hlen, ?_, ?_, ?_⟩
  · rw [hlen]
    exact (List.length_filter_le _ _).trans (by decide)
  · intro hnone
    have hb : ∀ P, bucket P files = [] := by
      intro P
      unfold bucket
      rw [List.filter_eq_nil_iff]
      intro name hname
      rw [hnone name hname P]
      decide
    apply List.eq_nil_of_length_eq_zero
    rw [hlen]
    simp [products, hb]
  · intro hD hO
    have hOe : (bucket .Office files).isEmpty = false := by
      cases hb : bucket .Office files with
      | nil => exact absurd hb hO
      | cons a l => rfl
    have h0 := congrArg (fun l => l[0]?) hmap
    simp only [List.getElem?_map] at h0
    rw [h0]
    simp [products, List.filter_cons, hD, hOe]

/-- C4: for every directory listing and every product, the file name from
which `getLatestVersion` derives the version of the product (the first element
of its sorted pool) is exactly the greatest name, in the order of strings, among
the entries starting with the token of the product, and each returned version
is derived from such a name; hence the result is the same for every
permutation of the listing. -/
theorem getLatestVersion_greatest_name (files : List Str) :
    (∀ P m, latest ((fillPools files).poolOf P) = some m ↔ IsGreatest m (bucket P files)) ∧
      getLatestVersion files =
        products.filterMap
          (fun P => (latest ((fillPools files).poolOf P)).map (versionOf P.token)) ∧
      (∀ files2 : List Str, files.Perm files2 →
        getLatestVersion files2 = getLatestVersion files) := by
  refine ⟨?_, ?_, ?_⟩
  · intro P m
    rw [fillPools_poolOf]
    exact latest_eq_some_iff
  · rw [getLatestVersion_eq_filterMap]
    congr 1
    funext P
    rw [fillPools_poolOf]
  · intro files2 h
    exact (getLatestVersion_congr h).symm

/-! ## Integers -/

theorem wrapInt_of_range {x : Int} (h1 : minInt ≤ x) (h2 : x ≤ maxInt) : wrapInt x = x := by
  unfold wrapInt
  unfold minInt at h1
  unfold maxInt at h2
  omega

theorem Atoi_ok_range {s : Str} {v : Int} (h : Atoi s = (v, none)) :
    minInt ≤ v ∧ v ≤ maxInt := by
  unfold Atoi at h
  dsimp only at h
  split at h
  · simp at h
  · split at h
    · simp at h
    · rename_i n _
      split_ifs at h with hs hr hr
      · simp at h
      · simp only [Prod.mk.injEq, and_true] at h
        subst h
        unfold minInt maxInt
        omega
      · simp at h
      · simp only [Prod.mk.injEq, and_true] at h
        subst h
        unfold maxInt at hr ⊢
        unfold minInt
        omega

/-! ## The bullet step -/

theorem greedy_isSome (cls : Char → Bool) (k : Str → Option Nat)
    (hk : ∀ s, (k s).isSome = true) : ∀ s, (greedy cls k s).isSome = true
  | [] => hk []
  | c :: s => by
    unfold greedy
    split_ifs
    · cases hg : greedy cls k s with
      | none => exact hk (c :: s)
      | some n => rfl
    · exact hk (c :: s)

theorem MatchString_bulletRe (v : Str) : MatchString bulletRe v = HasPrefix v "- ".toList := by
  have hstar : ∀ t, (greedy isDot (matchHere []) t).isSome = true :=
    greedy_isSome isDot (matchHere []) (fun _ => rfl)
  cases v with
  | nil => rfl
  | cons c s =>
    cases s with
    | nil =>
      simp only [MatchString, bulletRe, matchHere, isLit]
      by_cases hc : c = '-' <;> simp [hc, HasPrefix]
    | cons d t =>
      simp only [MatchString, bulletRe, matchHere, isLit]
      have ht := hstar t
      have ht2 : (greedy isDot (fun _ => some 0) t).isSome = true :=
        greedy_isSome isDot (fun _ => some 0) (fun _ => rfl) t
      by_cases hc : c = '-' <;> by_cases hd : d = ' ' <;>
        simp [hc, hd, HasPrefix, Option.isSome_map', ht, ht2]

theorem bullet_eq (v : Str) :
    bullet v = if v ≠ [] ∧ HasPrefix v "- ".toList = false then "- ".toList ++ v else v := by
  unfold bullet
  rw [MatchString_bulletRe]
  cases hp : HasPrefix v "- ".toList <;> cases v <;> simp

theorem bullet_of_bulleted {v : Str} (h : HasPrefix v "- ".toList = true) : bullet v = v := by
  rw [bullet_eq, h]
  simp

theorem bullet_bullet (v : Str) : bullet (bullet v) = bullet v := by
  by_cases hv : v ≠ [] ∧ HasPrefix v "- ".toList = false
  · have h1 : bullet v = "- ".toList ++ v := by rw [bullet_eq, if_pos hv]
    rw [h1]
    apply bullet_of_bulleted
    simp [HasPrefix]
  · have h1 : bullet v = v := by rw [bullet_eq, if_neg hv]
    rw [h1, h1]

/-! ## The run of `getLatestBuildLog` -/

theorem FindAllString_two (re : Regexp) (s : Str) :
    FindAllString re s 2 = (FindAllString re s (-1)).take 2 := by
  simp [FindAllString]

theorem getLatestBuildLog_of_tokens (svn : List Str → Str) (directory r0 r1 : Str)
    (h0 : (FindAllString revisionRe (svn (probeArgs directory)) 2)[0]? = some r0)
    (h1 : (FindAllString revisionRe (svn (probeArgs directory)) 2)[1]? = some r1)
    (herr : (Atoi (r0.drop 1)).2 = none) :
    getLatestBuildLog svn directory =
      ⟨[probeArgs directory,
          rangeArgs directory (officeRange (wrapInt ((Atoi (r1.drop 1)).1 + 1))
            (wrapInt ((Atoi (r0.drop 1)).1 - 1)))],
        .returned (reformat (svn (rangeArgs directory
          (officeRange (wrapInt ((Atoi (r1.drop 1)).1 + 1))
            (wrapInt ((Atoi (r0.drop 1)).1 - 1))))))⟩ := by
  unfold getLatestBuildLog
  simp only [h0, h1, herr, ne_eq, not_true_eq_false, if_false]

theorem getLatestBuildLog_of_markers (svn : List Str → Str) (directory r0 r1 : Str)
    (first second : Int)
    (h0 : (FindAllString revisionRe (svn (probeArgs directory)) 2)[0]? = some r0)
    (h1 : (FindAllString revisionRe (svn (probeArgs directory)) 2)[1]? = some r1)
    (hfirst : Atoi (r0.drop 1) = (first, none))
    (hsecond : Atoi (r1.drop 1) = (second, none)) :
    getLatestBuildLog svn directory =
      ⟨[probeArgs directory,
          rangeArgs directory (officeRange (wrapInt (second + 1)) (wrapInt (first - 1)))],
        .returned (reformat (svn (rangeArgs directory
          (officeRange (wrapInt (second + 1)) (wrapInt (first - 1))))))⟩ := by
  rw [getLatestBuildLog_of_tokens svn directory r0 r1 h0 h1 (by rw [hfirst])]
  rw [hfirst, hsecond]

/-! ## Claims about the changelog window extractor -/

/-- C5: when the revision pattern matches at least twice in the probe output
and the two first tokens parse to the markers `first` and `second` with
`first > second + 1`, `getLatestBuildLog` computes `revisionFrom = second + 1`
and `revisionTo = first - 1` without wrap-around, queries exactly the range
`"-r" + Itoa(second + 1) + ":" + Itoa(first - 1)`, and
`second < revisionFrom <= revisionTo < first`; for the probe output
`"r105 ...\nr100 ...\n"` the tokens are `r105`, `r100`, the markers 105 and 100,
and the range argument is `"-r101:104"`. -/
theorem getLatestBuildLog_window (svn : List Str → Str) (directory r0 r1 : Str)
    (first second : Int)
    (h0 : (FindAllString revisionRe (svn (probeArgs directory)) 2)[0]? = some r0)
    (h1 : (FindAllString revisionRe (svn (probeArgs directory)) 2)[1]? = some r1)
    (hfirst : Atoi (r0.drop 1) = (first, none))
    (hsecond : Atoi (r1.drop 1) = (second, none))
    (hgap : first > second + 1) :
    wrapInt (second + 1) = second + 1 ∧ wrapInt (first - 1) = first - 1 ∧
      (getLatestBuildLog svn directory).commands =
        [probeArgs directory, rangeArgs directory (officeRange (second + 1) (first - 1))] ∧
      (getLatestBuildLog svn directory).result =
        .returned (reformat (svn (rangeArgs directory (officeRange (second + 1) (first - 1))))) ∧
      (second < second + 1 ∧ second + 1 ≤ first - 1 ∧ first - 1 < first) ∧
      (∀ (svn2 : List Str → Str) (dir2 : Str),
        svn2 (probeArgs dir2) = "r105 ...\nr100 ...\n".toList →
          FindAllString revisionRe (svn2 (probeArgs dir2)) 2 = ["r105".toList, "r100".toList] ∧
          Atoi ("r105".toList.drop 1) = (105, none) ∧
          Atoi ("r100".toList.drop 1) = (100, none) ∧
          (getLatestBuildLog svn2 dir2).commands =
            [probeArgs dir2, rangeArgs dir2 "-r101:104".toList]) := by
  have b1 := Atoi_ok_range hfirst
  have b2 := Atoi_ok_range hsecond
  have w1 : wrapInt (second + 1) = second + 1 :=
    wrapInt_of_range (by omega) (by omega)
  have w2 : wrapInt (first - 1) = first - 1 :=
    wrapInt_of_range (by omega) (by omega)
  have hrun := getLatestBuildLog_of_markers svn directory r0 r1 first second h0 h1 hfirst hsecond
  rw [w1, w2] at hrun
  refine ⟨w1, w2, by rw [hrun], by rw [hrun], ⟨by omega, by omega, by omega⟩, ?_⟩
  intro svn2 dir2 hprobe
  have hrev : FindAllString revisionRe (svn2 (probeArgs dir2)) 2 =
      ["r105".toList, "r100".toList] := by
    rw [hprobe]
    decide
  have ha : Atoi ("r105".toList.drop 1) = (105, none) := by decide
  have hb : Atoi ("r100".toList.drop 1) = (100, none) := by decide
  refine ⟨hrev, ha, hb, ?_⟩
  rw [getLatestBuildLog_of_markers svn2 dir2 "r105".toList "r100".toList 105 100
    (by rw [hrev]; rfl) (by rw [hrev]; rfl) ha hb]
  have hr : officeRange (wrapInt (100 + 1)) (wrapInt (105 - 1)) = "-r101:104".toList := by
    decide
  rw [hr]

theorem getLatestBuildLog_window_witness :
    (FindAllString revisionRe (svnAnswering "trunk".toList "r105 ...\nr100 ...\n".toList []
        (probeArgs "trunk".toList)) 2)[0]? = some "r105".toList ∧
      (FindAllString revisionRe (svnAnswering "trunk".toList "r105 ...\nr100 ...\n".toList []
        (probeArgs "trunk".toList)) 2)[1]? = some "r100".toList ∧
      Atoi ("r105".toList.drop 1) = (105, none) ∧
      Atoi ("r100".toList.drop 1) = (100, none) ∧
      (105 : Int) > 100 + 1 ∧
      (getLatestBuildLog (svnAnswering "trunk".toList "r105 ...\nr100 ...\n".toList [])
        "trunk".toList).commands =
        [probeArgs "trunk".toList,
          rangeArgs "trunk".toList (officeRange (100 + 1) (105 - 1))] :=
  ⟨by decide, by decide, by decide, by decide, by decide,
    (getLatestBuildLog_window (svnAnswering "trunk".toList "r105 ...\nr100 ...\n".toList [])
      "trunk".toList "r105".toList "r100".toList 105 100
      (by decide) (by decide) (by decide) (by decide) (by decide)).2.2.1⟩

/-- C6: when the revision pattern `r[0-9]+` matches fewer than two times in the
probe output, `getLatestBuildLog` fails at the index `revisions[1]` (the
`NoBuildMarkersFound` of the design): the probe is the only command it has run,
so no range query is issued, and no changelog is returned. -/
theorem getLatestBuildLog_too_few_markers (svn : List Str → Str) (directory : Str)
    (h : (FindAllString revisionRe (svn (probeArgs directory)) (-1)).length < 2) :
    getLatestBuildLog svn directory =
      ⟨[probeArgs directory], .failed .indexOutOfRange⟩ := by
  have hnone : (FindAllString revisionRe (svn (probeArgs directory)) 2)[1]? = none := by
    rw [FindAllString_two, List.getElem?_eq_none_iff, List.length_take]
    omega
  unfold getLatestBuildLog
  simp only [hnone]

theorem getLatestBuildLog_too_few_markers_witness :
    (FindAllString revisionRe
        (svnAnswering "trunk".toList "r105 | zbuild\n".toList "r1 | x\n".toList
          (probeArgs "trunk".toList)) (-1)).length < 2 ∧
      getLatestBuildLog (svnAnswering "trunk".toList "r105 | zbuild\n".toList "r1 | x\n".toList)
        "trunk".toList = ⟨[probeArgs "trunk".toList], .failed .indexOutOfRange⟩ :=
  ⟨by decide, getLatestBuildLog_too_few_markers _ _ (by decide)⟩

/-- C7 (the code at the failing input): with the probe output
`"r105 ...\nr99999999999999999999 ...\n"` the second token does not parse
(`Atoi` reports `ErrRange` and gives the largest `int`), yet
`getLatestBuildLog` does not fail: the error is overwritten by the second
`Atoi`, the increment wraps around and the range `-r-9223372036854775808:104`
is queried.  With the two tokens exchanged the run does fail. -/
theorem getLatestBuildLog_second_token_unchecked :
    FindAllString revisionRe "r105 ...\nr99999999999999999999 ...\n".toList 2 =
        ["r105".toList, "r99999999999999999999".toList] ∧
      Atoi ("r99999999999999999999".toList.drop 1) = (maxInt, some .ErrRange) ∧
      getLatestBuildLog
          (svnAnswering "trunk".toList "r105 ...\nr99999999999999999999 ...\n".toList [])
          "trunk".toList =
        ⟨[probeArgs "trunk".toList,
            rangeArgs "trunk".toList "-r-9223372036854775808:104".toList],
          .returned []⟩ ∧
      getLatestBuildLog
          (svnAnswering "trunk".toList "r99999999999999999999 ...\nr105 ...\n".toList [])
          "trunk".toList =
        ⟨[probeArgs "trunk".toList], .failed .atoiFailed⟩ := by
  decide

/-- C8 (the code at the failing input): for the raw output
`"r101 | alice | 1 line\nFix bug\n--------\n"` neither expression matches, since
both ask for a white-space character between the end of the line's text and its
line feed, and the header and the dashes stay in the result, each with a bullet
in front.  In the output of two entries below, the dashed lines stay as well
and the message line `see r100 for details`, followed by an empty line, loses
everything from `r100` on. -/
theorem reformat_keeps_commit_info :
    reformat "r101 | alice | 1 line\nFix bug\n--------\n".toList =
        "- r101 | alice | 1 line<br>- Fix bug<br>- --------<br>".toList ∧
      reformat "----\nr101 | al | 3 lines\n\nsee r100 for details\n\nmore\n----\n".toList =
        "- ----<br>- see more<br>- ----<br>".toList := by
  decide

/-- C9: when the two first tokens of the probe output parse to adjacent markers
(`first = second + 1`), the window computed by `getLatestBuildLog` is empty
(`revisionFrom = first > revisionTo = first - 1`), the run does not fail but
queries that range and returns the reformatted output, and when the range query
gives the empty text the returned changelog is the empty string. -/
theorem getLatestBuildLog_adjacent (svn : List Str → Str) (directory r0 r1 : Str)
    (first second : Int)
    (h0 : (FindAllString revisionRe (svn (probeArgs directory)) 2)[0]? = some r0)
    (h1 : (FindAllString revisionRe (svn (probeArgs directory)) 2)[1]? = some r1)
    (hfirst : Atoi (r0.drop 1) = (first, none))
    (hsecond : Atoi (r1.drop 1) = (second, none))
    (hadj : first = second + 1) :
    wrapInt (second + 1) = first ∧ wrapInt (first - 1) = first - 1 ∧ first > first - 1 ∧
      (getLatestBuildLog svn directory).commands =
        [probeArgs directory, rangeArgs directory (officeRange first (first - 1))] ∧
      (getLatestBuildLog svn directory).result =
        .returned (reformat (svn (rangeArgs directory (officeRange first (first - 1))))) ∧
      (svn (rangeArgs directory (officeRange first (first - 1))) = [] →
        (getLatestBuildLog svn directory).result = .returned []) := by
  have b1 := Atoi_ok_range hfirst
  have b2 := Atoi_ok_range hsecond
  have w1 : wrapInt (second + 1) = first := by
    rw [wrapInt_of_range (by omega) (by omega), hadj]
  have w2 : wrapInt (first - 1) = first - 1 :=
    wrapInt_of_range (by omega) (by omega)
  have hrun := getLatestBuildLog_of_markers svn directory r0 r1 first second h0 h1 hfirst hsecond
  rw [w1, w2] at hrun
  refine ⟨w1, w2, by omega, by rw [hrun], by rw [hrun], ?_⟩
  intro hempty
  rw [hrun]
  simp only [hempty]
  rfl

theorem getLatestBuildLog_adjacent_witness :
    (FindAllString revisionRe (svnAnswering "trunk".toList "r101 ...\nr100 ...\n".toList []
        (probeArgs "trunk".toList)) 2)[0]? = some "r101".toList ∧
      (FindAllString revisionRe (svnAnswering "trunk".toList "r101 ...\nr100 ...\n".toList []
        (probeArgs "trunk".toList)) 2)[1]? = some "r100".toList ∧
      Atoi ("r101".toList.drop 1) = (101, none) ∧
      Atoi ("r100".toList.drop 1) = (100, none) ∧
      (101 : Int) = 100 + 1 ∧
      (getLatestBuildLog (svnAnswering "trunk".toList "r101 ...\nr100 ...\n".toList [])
        "trunk".toList).commands =
        [probeArgs "trunk".toList, rangeArgs "trunk".toList (officeRange 101 (101 - 1))] :=
  ⟨by decide, by decide, by decide, by decide, by decide,
    (getLatestBuildLog_adjacent (svnAnswering "trunk".toList "r101 ...\nr100 ...\n".toList [])
      "trunk".toList "r101".toList "r100".toList 101 100
      (by decide) (by decide) (by decide) (by decide) (by decide)).2.2.2.1⟩

/-- C10: the bullet step of `getLatestBuildLog` puts `"- "` in front of a line
exactly when the line is not empty and does not begin with `"- "`; it is
idempotent on every list of lines, and it leaves every line that begins with
`"- "` unchanged. -/
theorem bulletLines_idempotent (lines : List Str) :
    bulletLines (bulletLines lines) = bulletLines lines ∧
      bulletLines lines =
        lines.map (fun v =>
          if v ≠ [] ∧ HasPrefix v "- ".toList = false then "- ".toList ++ v else v) ∧
      (∀ v : Str, HasPrefix v "- ".toList = true → bullet v = v) := by
  refine ⟨?_, ?_, fun v hv => bullet_of_bulleted hv⟩
  · unfold bulletLines
    rw [List.map_map]
    apply List.map_congr_left
    intro v _
    exact bullet_bullet v
  · unfold bulletLines
    apply List.map_congr_left
    intro v _
    exact bullet_eq v

end Autobuildmail
